import Mathlib

/-!
# Verification of the wavespectra spectral partitioning core

Shallow embedding of the watershed spectral-partitioning module of the
`wavespectra` repository (`wavespectra/partition/partition.py` and the grid
metrics / statistics of `wavespectra/specarray.py`) together with proofs of
the behavioural claims made about it.

Conventions of the embedding:

* A 2-D frequency-direction spectrum is a total function `Mat = ℕ → ℕ → ℚ`;
  the grid shape `(nf, nd)` is passed explicitly where the numpy code uses
  `array.shape`.  Floating point arithmetic is idealised as exact rational
  arithmetic; where a floating-point quirk matters (division by zero and the
  resulting inf/NaN comparisons) it is modelled explicitly, see
  `wsfracExceeds`.
* The compiled watershed kernel `specpart.partition` is not part of the
  Python sources here (only its callers are), so it is abstracted as a
  parameter `wshed` producing an integer region map; properties the spec
  attributes to it (background cells carry no energy) appear as hypotheses.
* The wave celerity function `celerity` of `wavespectra.core.utils` is
  likewise absent from the sources and is passed as a parameter `cel`.
* `hs` of `wavespectra.core.npstats` is absent from the sources and is
  modelled from the spec as 4 times the square root of the zeroth spectral
  moment computed with the grid bin widths (`npHs`).  Since `Real.sqrt` is
  not computable and `x ↦ 4√x` is strictly monotone on nonnegative moments,
  the executable sorting code ranks partitions by the moment `m0` itself;
  the agreement of the two rankings is `npHs_lt_npHs` / `npHs_le_npHs`.
-/

/-- A 2-D spectrum: energy density indexed by (frequency index, direction index). -/
abbrev Mat : Type := ℕ → ℕ → ℚ

/-- The zero spectrum (`np.zeros_like`). -/
def zeroM : Mat := fun _ _ => 0

/-- Elementwise sum of two spectra (numpy `+`). -/
def matAdd (a b : Mat) : Mat := fun i j => a i j + b i j

/-- Total energy `arr.sum()` over an `(nf, nd)` grid. -/
def matSum (nf nd : ℕ) (S : Mat) : ℚ :=
  ∑ i ∈ Finset.range nf, ∑ j ∈ Finset.range nd, S i j

/-- Masked total `arr[mask].sum()` over an `(nf, nd)` grid. -/
def maskedSum (nf nd : ℕ) (mask : ℕ → ℕ → Bool) (S : Mat) : ℚ :=
  ∑ i ∈ Finset.range nf, ∑ j ∈ Finset.range nd, if mask i j then S i j else 0

/-- Bin-for-bin sum of a stack of partitions (`np.array(parts).sum(axis=0)`). -/
def stackSum (parts : List Mat) : Mat := parts.foldl matAdd zeroM

/-- `SpecArray.df` (specarray.py lines 75-86): trapezoidal frequency bin
widths `fact * (ldif + rdif)` with `fact = [1, 0.5, ..., 0.5, 1]`,
`ldif = [0] ++ diff(freq)`, `rdif = diff(freq) ++ [0]`; the one-element
array `[1.0]` when the frequency coordinate has a single entry. -/
def dfList (freq : List ℚ) : List ℚ :=
  if 1 < freq.length then
    let fact : List ℚ := 1 :: (List.replicate (freq.length - 2) (1/2) ++ [1])
    let d : List ℚ := List.zipWith (fun a b => b - a) freq freq.tail
    let ldif : List ℚ := 0 :: d
    let rdif : List ℚ := d ++ [0]
    List.zipWith (fun a b => a * b) fact (List.zipWith (fun a b => a + b) ldif rdif)
  else [1]

/-- `SpecArray.dd` (specarray.py lines 88-97): uniform direction bin width
`abs(dir[1] - dir[0])`, or `1.0` for a single direction. -/
def ddQ (dir : List ℚ) : ℚ :=
  if 1 < dir.length then |dir.getD 1 0 - dir.getD 0 0| else 1

/-- Modelled from the spec: the zeroth spectral moment of a 2-D spectrum,
"the energy density integrated over direction and frequency with the grid
bin widths" - the quantity under the square root in the absent
`wavespectra.core.npstats.hs`. -/
def m0 (nf nd : ℕ) (freq dir : List ℚ) (S : Mat) : ℚ :=
  ddQ dir * ∑ i ∈ Finset.range nf, (dfList freq).getD i 0 * ∑ j ∈ Finset.range nd, S i j

/-- Modelled from the spec: `hs` of the absent `wavespectra.core.npstats`,
"4 x sqrt of the zeroth spectral moment of a (sub-)spectrum". -/
noncomputable def npHs (nf nd : ℕ) (freq dir : List ℚ) (S : Mat) : ℝ :=
  4 * Real.sqrt ((m0 nf nd freq dir S : ℚ) : ℝ)

/-- Modelled from the spec: the degrees-to-radians factor `D2R` of the
absent `wavespectra.core.utils`. -/
noncomputable def D2R : ℝ := Real.pi / 180

/-- The per-bin wind-sea mask of `np_ptm1` (partition.py lines 283-284):
bin `(i, j)` is wind-forced when
`agefac * wspd * cos(D2R * (dir[j] - wdir))` strictly exceeds the wave
celerity at frequency `freq[i]` and depth `dpt`.  `cel` stands for the
`celerity` function of the absent `wavespectra.core.utils`. -/
noncomputable def windseamaskB (cel : ℝ → ℝ → ℝ) (freq dir : List ℚ)
    (wspd wdir dpt agefac : ℝ) : ℕ → ℕ → Bool :=
  fun i j =>
    @decide (agefac * wspd * Real.cos (D2R * (((dir.getD j 0 : ℚ) : ℝ) - wdir))
        > cel ((freq.getD i 0 : ℚ) : ℝ) dpt)
      (Classical.propDecidable _)

/-- `np.where(watershed_map == k, spectrum, 0.0)` (partition.py line 290). -/
def regionPart (wmap : ℕ → ℕ → ℕ) (S : Mat) (k : ℕ) : Mat :=
  fun i j => if wmap i j = k then S i j else 0

/-- `watershed_map.max()` over the `(nf, nd)` grid (partition.py line 280). -/
def npartsOf (wmap : ℕ → ℕ → ℕ) (nf nd : ℕ) : ℕ :=
  (Finset.range nf).sup fun i => (Finset.range nd).sup fun j => wmap i j

/-- The comparison `part[windseamask].sum() / part.sum() > wscut` of
partition.py line 291-292 under IEEE float semantics: when `part.sum()` is
zero the quotient is `inf` (masked sum positive), `-inf` (negative) or `NaN`
(zero), and the comparison against a finite `wscut` holds exactly when the
masked sum is positive. -/
def wsfracExceeds (msum psum wscut : ℚ) : Bool :=
  if psum = 0 then decide (0 < msum) else decide (wscut < msum / psum)

/-- Whether region `k` of the watershed map is classified as wind sea by
`np_ptm1` (partition.py lines 290-292). -/
def classifyWS (S : Mat) (wmap : ℕ → ℕ → ℕ) (nf nd : ℕ) (mask : ℕ → ℕ → Bool)
    (wscut : ℚ) (k : ℕ) : Bool :=
  wsfracExceeds (maskedSum nf nd mask (regionPart wmap S k))
    (matSum nf nd (regionPart wmap S k)) wscut

/-- The wind-sea partition accumulated by the loop of partition.py lines
287-295: the sum of every region whose wind-sea fraction exceeds `wscut`. -/
def wseaPartition (S : Mat) (wmap : ℕ → ℕ → ℕ) (nf nd : ℕ) (mask : ℕ → ℕ → Bool)
    (wscut : ℚ) : Mat :=
  (List.range (npartsOf wmap nf nd)).foldl
    (fun acc ipart =>
      if classifyWS S wmap nf nd mask wscut (ipart + 1) then
        matAdd acc (regionPart wmap S (ipart + 1))
      else acc)
    zeroM

/-- The swell-candidate list built by the same loop: slot `ipart` holds the
region `ipart + 1` when it is not wind sea, and stays the zero spectrum when
the region was folded into the wind-sea partition. -/
def swellPartitionsRaw (S : Mat) (wmap : ℕ → ℕ → ℕ) (nf nd : ℕ)
    (mask : ℕ → ℕ → Bool) (wscut : ℚ) : List Mat :=
  (List.range (npartsOf wmap nf nd)).map
    (fun ipart =>
      if classifyWS S wmap nf nd mask wscut (ipart + 1) then zeroM
      else matAdd zeroM (regionPart wmap S (ipart + 1)))

/-- `np.argsort` of a list of keys, ascending; implemented as a stable
insertion sort of the index list (ties in `np.argsort` are resolved in an
unspecified order by numpy's quicksort, and no claim depends on them). -/
def argsortAsc (keys : List ℚ) : List ℕ :=
  List.insertionSort (fun a b => keys.getD a 0 ≤ keys.getD b 0)
    (List.range keys.length)

/-- The swell ordering step of `np_ptm1` (partition.py lines 297-299):
`isort = np.argsort([-hs(swell) for swell in swell_partitions])` followed by
`[swell for _, swell in sorted(zip(isort, swell_partitions))]`.  Ranking by
`hs = 4 * sqrt(m0)` coincides with ranking by `m0` (see `npHs_le_npHs`), so
the executable keys are the moments `m0`; the second step sorts the pairs by
their first component, exactly as Python `sorted` does on the distinct
entries of `isort`. -/
def sortedSwellList (S : Mat) (wmap : ℕ → ℕ → ℕ) (nf nd : ℕ)
    (mask : ℕ → ℕ → Bool) (wscut : ℚ) (freq dir : List ℚ) : List Mat :=
  let sw := swellPartitionsRaw S wmap nf nd mask wscut
  let isort := argsortAsc (sw.map fun p => -(m0 nf nd freq dir p))
  (List.insertionSort (fun a b : ℕ × Mat => a.1 ≤ b.1) (isort.zip sw)).map Prod.snd

/-- Python slice `l[:n]` including the negative-index convention:
`l[:n]` is the first `n` elements for `n ≥ 0` and drops the last `|n|`
elements for `n < 0`. -/
def pySliceTo {α : Type} (l : List α) (n : ℤ) : List α :=
  if 0 ≤ n then l.take n.toNat else l.take (l.length - (-n).toNat)

/-- Index pairs of an `(nf, nd)` grid in row-major order. -/
def gridIdxs (nf nd : ℕ) : List (ℕ × ℕ) :=
  (List.range nf).flatMap fun i => (List.range nd).map fun j => (i, j)

/-- The grid position of the spectral peak (first occurrence of the maximum,
row-major), used by the modelled partition combining. -/
def peakIdx (nf nd : ℕ) (S : Mat) : ℕ × ℕ :=
  (gridIdxs nf nd).foldl (fun best p => if S best.1 best.2 < S p.1 p.2 then p else best) (0, 0)

/-- Direction-aware angular difference on the closed 0-360 degree circle. -/
def circDiffQ (a b : ℚ) : ℚ := min |a - b| (360 - |a - b|)

/-- Squared distance between two spectral peaks, direction-aware. -/
def peakDist2 (freq dir : List ℚ) (p q : ℕ × ℕ) : ℚ :=
  (freq.getD p.1 0 - freq.getD q.1 0) ^ 2
    + (circDiffQ (dir.getD p.2 0) (dir.getD q.2 0)) ^ 2

/-- Index of the first minimum of a list of distances. -/
def argminIdx (l : List ℚ) : ℕ :=
  (List.range l.length).foldl
    (fun best i => if l.getD i 0 < l.getD best 0 then i else best) 0

/-- Add partition `p` onto the kept partition whose spectral peak is closest
to the peak of `p`. -/
def addToClosest (nf nd : ℕ) (freq dir : List ℚ) (acc : List Mat) (p : Mat) : List Mat :=
  let dists := acc.map fun q => peakDist2 freq dir (peakIdx nf nd p) (peakIdx nf nd q)
  let i := argminIdx dists
  acc.set i (matAdd (acc.getD i zeroM) p)

/-- Modelled from the spec: `combine_partitions` of the absent
`wavespectra.partition.utils` - "combine less energetic partitions onto one
of the keeping ones according to shortest distance between spectral peaks",
so that exactly `keep` partitions remain. -/
def combine_partitions (parts : List Mat) (nf nd : ℕ) (freq dir : List ℚ)
    (keep : ℤ) : List Mat :=
  let kept := pySliceTo parts keep
  (parts.drop kept.length).foldl (addToClosest nf nd freq dir) kept

/-- `np_ptm1` (partition.py lines 238-318) downstream of the watershed map
and the wind-sea mask: classify each region, order the swell candidates,
then reconcile the candidate count against `swells` exactly as the Python
branches do (`None` drops null partitions; otherwise combine, slice or pad). -/
def np_ptm1Core (S : Mat) (wmap : ℕ → ℕ → ℕ) (nf nd : ℕ) (mask : ℕ → ℕ → Bool)
    (freq dir : List ℚ) (wscut : ℚ) (swells : Option ℤ) (combine : Bool) : List Mat :=
  let nparts := npartsOf wmap nf nd
  let wsea := wseaPartition S wmap nf nd mask wscut
  let sorted := sortedSwellList S wmap nf nd mask wscut freq dir
  let adjusted :=
    match swells with
    | none => sorted.filter fun p => decide (0 < matSum nf nd p)
    | some s =>
      if s < (nparts : ℤ) ∧ combine = true then combine_partitions sorted nf nd freq dir s
      else if s < (nparts : ℤ) ∧ combine = false then pySliceTo sorted s
      else if (nparts : ℤ) < s then sorted ++ List.replicate (s - (nparts : ℤ)).toNat zeroM
      else sorted
  wsea :: adjusted

/-- `np_ptm1` (partition.py lines 238-318).  The compiled watershed kernel
`specpart.partition` applied to the smoothed spectrum is the parameter
`wshed`, and the celerity function is the parameter `cel` (both live outside
these sources). -/
noncomputable def np_ptm1 (wshed : Mat → ℕ → ℕ → ℕ → ℕ → ℕ) (cel : ℝ → ℝ → ℝ)
    (S Ssm : Mat) (nf nd : ℕ) (freq dir : List ℚ) (wspd wdir dpt agefac : ℝ)
    (wscut : ℚ) (swells : Option ℤ) (combine : Bool) : List Mat :=
  np_ptm1Core S (wshed Ssm nf nd) nf nd
    (windseamaskB cel freq dir wspd wdir dpt agefac) freq dir wscut swells combine

/-- The raw region partitions of `np_ptm3` (partition.py lines 349-351). -/
def ptm3Partitions (S : Mat) (wmap : ℕ → ℕ → ℕ) (nf nd : ℕ) : List Mat :=
  (List.range (npartsOf wmap nf nd)).map fun n => regionPart wmap S (n + 1)

/-- The ordering step of `np_ptm3` (partition.py lines 353-355):
`sorted(zip(hs_partitions, partitions), reverse=True)` - a stable sort of
the pairs by descending key, again keyed by `m0` (see `npHs_le_npHs`). -/
def ptm3Sorted (S : Mat) (wmap : ℕ → ℕ → ℕ) (nf nd : ℕ) (freq dir : List ℚ) : List Mat :=
  let ps := ptm3Partitions S wmap nf nd
  let keys := ps.map (m0 nf nd freq dir)
  (List.insertionSort (fun a b : ℚ × Mat => b.1 ≤ a.1) (keys.zip ps)).map Prod.snd

/-- `np_ptm3` (partition.py lines 321-371) downstream of the watershed map. -/
def np_ptm3Core (S : Mat) (wmap : ℕ → ℕ → ℕ) (nf nd : ℕ) (freq dir : List ℚ)
    (parts : Option ℤ) (combine : Bool) : List Mat :=
  let nparts := npartsOf wmap nf nd
  let sorted := ptm3Sorted S wmap nf nd freq dir
  match parts with
  | none => sorted
  | some p =>
    if p < (nparts : ℤ) ∧ combine = true then combine_partitions sorted nf nd freq dir p
    else if p < (nparts : ℤ) ∧ combine = false then pySliceTo sorted p
    else if (nparts : ℤ) < p then sorted ++ List.replicate (p - (nparts : ℤ)).toNat zeroM
    else sorted

/-- `np_ptm3` (partition.py lines 321-371), with the absent watershed kernel
as the parameter `wshed`. -/
def np_ptm3 (wshed : Mat → ℕ → ℕ → ℕ → ℕ → ℕ) (S Ssm : Mat) (nf nd : ℕ)
    (freq dir : List ℚ) (parts : Option ℤ) (combine : Bool) : List Mat :=
  np_ptm3Core S (wshed Ssm nf nd) nf nd freq dir parts combine

/-- The row permutation of `dset.sortby("freq")` applied to the frequency
coordinate (xarray sorts by coordinate value, stably). -/
def ptm5Freq (freq : List ℚ) : List ℚ :=
  (argsortAsc freq).map fun i => freq.getD i 0

/-- The column permutation of `dset.sortby("dir")` applied to the direction
coordinate. -/
def ptm5Dir (dir : List ℚ) : List ℚ :=
  (argsortAsc dir).map fun j => dir.getD j 0

/-- `dset.sortby("dir").sortby("freq")` (partition.py line 219): the
spectrum with rows and columns reordered by ascending coordinate value. -/
def ptm5SortedS (S : Mat) (freq dir : List ℚ) : Mat :=
  fun i j => S ((argsortAsc freq).getD i i) ((argsortAsc dir).getD j j)

/-- Modelled from the spec: `regrid_spec` of the absent
`wavespectra.core.utils`, restricted to its use in `ptm5` - the cutoff
frequency is inserted as a new bin of the (sorted) grid, neighbours
unchanged, and the spectrum is linearly interpolated at the new bin. -/
def regridModel (S : Mat) (freq dir : List ℚ) (fcut : ℚ) : Mat × List ℚ :=
  let f1 := ptm5Freq freq
  let S1 := ptm5SortedS S freq dir
  let p := (f1.filter fun x => decide (x < fcut)).length
  let f2 := f1.take p ++ fcut :: f1.drop p
  let S2 : Mat := fun i j =>
    if i < p then S1 i j
    else if i = p then
      if p = 0 ∨ p = f1.length then S1 (if p = 0 then 0 else p - 1) j
      else
        (S1 (p - 1) j * (f1.getD p 0 - fcut) + S1 p j * (fcut - f1.getD (p - 1) 0))
          / (f1.getD p 0 - f1.getD (p - 1) 0)
    else S1 (i - 1) j
  (S2, f2)

/-- `Partition.ptm5` (partition.py lines 200-235): sort the spectrum by
direction and frequency, insert the cutoff frequency if requested and
absent, then return the pair of partitions
`hf = dsout.where(freq >= fcut)` and `lf = dsout.where(freq <= fcut)`
with the masked-out bins zero-filled (`fillna(0.)`), together with the
output frequency coordinate. -/
def ptm5 (S : Mat) (freq dir : List ℚ) (fcut : ℚ) (interpolate : Bool)
    : List Mat × List ℚ :=
  let S1 := ptm5SortedS S freq dir
  let f1 := ptm5Freq freq
  let regridded :=
    if interpolate = true ∧ ¬ fcut ∈ freq then regridModel S freq dir fcut
    else (S1, f1)
  let S2 := regridded.1
  let f2 := regridded.2
  let hf : Mat := fun i j => if fcut ≤ f2.getD i 0 then S2 i j else 0
  let lf : Mat := fun i j => if f2.getD i 0 ≤ fcut then S2 i j else 0
  ([hf, lf], f2)

/-- `SpecArray.oned(skipna=False)` (specarray.py lines 183-197) as a
function of the frequency row index: `dd * sum over the direction dim`. -/
def onedRow (dir : List ℚ) (S : Mat) : ℕ → ℚ :=
  fun i => ddQ dir * ∑ j ∈ Finset.range dir.length, S i j

/-- The energy integral inside `SpecArray.hs` (specarray.py lines 248-263):
`E = (Sf * df).sum()`, plus the high-frequency tail term
`0.25 * Sf[-1] * freq[-1]` when `tail` is set and the last frequency
exceeds 0.333 Hz. -/
def hsE (tail : Bool) (freq dir : List ℚ) (S : Mat) : ℚ :=
  let Sf := onedRow dir S
  let E := ∑ i ∈ Finset.range freq.length, Sf i * (dfList freq).getD i 0
  if tail = true ∧ 333/1000 < freq.getD (freq.length - 1) 0 then
    E + 1/4 * Sf (freq.length - 1) * freq.getD (freq.length - 1) 0
  else E

/-- `SpecArray.hs` (specarray.py lines 248-265): `4 * sqrt(E)`. -/
noncomputable def specArrayHs (tail : Bool) (freq dir : List ℚ) (S : Mat) : ℝ :=
  4 * Real.sqrt ((hsE tail freq dir S : ℚ) : ℝ)

/-- The zeroth spectral moment exactly as claim C8 words it: the energy
density integrated over direction and frequency with the grid bin widths,
with no additional terms. -/
def zerothMoment (freq dir : List ℚ) (S : Mat) : ℚ :=
  ∑ i ∈ Finset.range freq.length,
    (dfList freq).getD i 0 * (ddQ dir * ∑ j ∈ Finset.range dir.length, S i j)

/-- `SpecArray.momf` (specarray.py lines 375-387) at direction index `j`:
`(df * freq ** mom * efth).sum(dim="freq")`. -/
def momfArr (mom : ℕ) (freq : List ℚ) (S : Mat) : ℕ → ℚ :=
  fun j => ∑ i ∈ Finset.range freq.length,
    (dfList freq).getD i 0 * (freq.getD i 0) ^ mom * S i j

/-- Concrete frequency coordinate (unit bin widths) for evaluations. -/
def freqC : List ℚ := [1, 2, 3]

/-- Concrete direction coordinate (unit bin width) for evaluations. -/
def dirC : List ℚ := [0, 1]

/-- Concrete 3 x 2 spectrum whose three rows carry energies 1, 9 and 4. -/
def specC : Mat := fun i _ => if i = 0 then 1/2 else if i = 1 then 9/2 else if i = 2 then 2 else 0

/-- Concrete watershed map splitting the 3 x 2 grid into one region per row. -/
def wmapC : ℕ → ℕ → ℕ := fun i j => if i < 3 ∧ j < 2 then i + 1 else 0

/-- Constant watershed kernel used to instantiate the `wshed` parameter. -/
def wshedC : Mat → ℕ → ℕ → ℕ → ℕ → ℕ := fun _ _ _ => wmapC

/-- Constant positive celerity used to instantiate the `cel` parameter. -/
def celC : ℝ → ℝ → ℝ := fun _ _ => 1

/-- Concrete 2 x 2 spectrum with an all-zero second region (column 1). -/
def specZ : Mat := fun _ j => if j = 0 then 1 else 0

/-- Watershed map assigning column `j` of the 2 x 2 grid to region `j + 1`. -/
def wmapZ : ℕ → ℕ → ℕ := fun i j => if i < 2 ∧ j < 2 then j + 1 else 0

/-- Constant watershed kernel for the 2 x 2 examples. -/
def wshedZ : Mat → ℕ → ℕ → ℕ → ℕ → ℕ := fun _ _ _ => wmapZ

/-- Concrete frequency pair for the `ptm5` and `hs` evaluations. -/
def freqT : List ℚ := [1/10, 2/5]

/-- Concrete all-ones 2-D spectrum. -/
def onesM : Mat := fun _ _ => 1

lemma matAdd_zeroM (p : Mat) : matAdd zeroM p = p :=
  funext fun _ => funext fun _ => zero_add _

lemma foldl_matAdd_apply (l : List Mat) (z : Mat) (i j : ℕ) :
    (l.foldl matAdd z) i j = z i j + (l.map fun p => p i j).sum := by
  induction l generalizing z with
  | nil => simp
  | cons h t ih =>
    simp only [List.foldl_cons, List.map_cons, List.sum_cons, ih, matAdd]
    ring

lemma stackSum_apply (l : List Mat) (i j : ℕ) :
    stackSum l i j = (l.map fun p => p i j).sum := by
  simp [stackSum, foldl_matAdd_apply, zeroM]

lemma foldl_condAdd_apply (l : List ℕ) (c : ℕ → Bool) (g : ℕ → Mat) (z : Mat) (i j : ℕ) :
    (l.foldl (fun acc n => if c n then matAdd acc (g n) else acc) z) i j
      = z i j + (l.map fun n => if c n then g n i j else 0).sum := by
  induction l generalizing z with
  | nil => simp
  | cons h t ih =>
    cases hc : c h with
    | false => simp [hc, ih]
    | true =>
      simp only [List.foldl_cons, List.map_cons, hc, if_true, List.sum_cons, ih, matAdd]
      ring

lemma map_snd_zip_self {α β : Type} :
    ∀ (l₁ : List α) (l₂ : List β), l₁.length = l₂.length →
      (l₁.zip l₂).map Prod.snd = l₂ := by
  intro l₁
  induction l₁ with
  | nil => intro l₂ h; cases l₂ <;> simp_all
  | cons a t ih =>
    intro l₂ h
    cases l₂ with
    | nil => simp at h
    | cons b t₂ => simpa using ih t₂ (by simpa using h)

lemma length_swellPartitionsRaw (S : Mat) (wmap : ℕ → ℕ → ℕ) (nf nd : ℕ)
    (mask : ℕ → ℕ → Bool) (wscut : ℚ) :
    (swellPartitionsRaw S wmap nf nd mask wscut).length = npartsOf wmap nf nd := by
  simp [swellPartitionsRaw]

lemma length_argsortAsc (keys : List ℚ) : (argsortAsc keys).length = keys.length := by
  simp [argsortAsc, List.length_insertionSort]

lemma sortedSwellList_perm (S : Mat) (wmap : ℕ → ℕ → ℕ) (nf nd : ℕ)
    (mask : ℕ → ℕ → Bool) (wscut : ℚ) (freq dir : List ℚ) :
    (sortedSwellList S wmap nf nd mask wscut freq dir).Perm
      (swellPartitionsRaw S wmap nf nd mask wscut) := by
  unfold sortedSwellList
  have hlen : (argsortAsc ((swellPartitionsRaw S wmap nf nd mask wscut).map
      fun p => -(m0 nf nd freq dir p))).length
      = (swellPartitionsRaw S wmap nf nd mask wscut).length := by
    simp [length_argsortAsc]
  have h := (List.perm_insertionSort (fun a b : ℕ × Mat => a.1 ≤ b.1)
    ((argsortAsc ((swellPartitionsRaw S wmap nf nd mask wscut).map
      fun p => -(m0 nf nd freq dir p))).zip (swellPartitionsRaw S wmap nf nd mask wscut))).map
      Prod.snd
  rwa [map_snd_zip_self _ _ hlen] at h

lemma length_sortedSwellList (S : Mat) (wmap : ℕ → ℕ → ℕ) (nf nd : ℕ)
    (mask : ℕ → ℕ → Bool) (wscut : ℚ) (freq dir : List ℚ) :
    (sortedSwellList S wmap nf nd mask wscut freq dir).length = npartsOf wmap nf nd := by
  rw [(sortedSwellList_perm S wmap nf nd mask wscut freq dir).length_eq,
    length_swellPartitionsRaw]

lemma length_ptm3Partitions (S : Mat) (wmap : ℕ → ℕ → ℕ) (nf nd : ℕ) :
    (ptm3Partitions S wmap nf nd).length = npartsOf wmap nf nd := by
  simp [ptm3Partitions]

lemma ptm3Sorted_perm (S : Mat) (wmap : ℕ → ℕ → ℕ) (nf nd : ℕ) (freq dir : List ℚ) :
    (ptm3Sorted S wmap nf nd freq dir).Perm (ptm3Partitions S wmap nf nd) := by
  unfold ptm3Sorted
  have hlen : ((ptm3Partitions S wmap nf nd).map (m0 nf nd freq dir)).length
      = (ptm3Partitions S wmap nf nd).length := by simp
  have h := (List.perm_insertionSort (fun a b : ℚ × Mat => b.1 ≤ a.1)
    (((ptm3Partitions S wmap nf nd).map (m0 nf nd freq dir)).zip
      (ptm3Partitions S wmap nf nd))).map Prod.snd
  rwa [map_snd_zip_self _ _ hlen] at h

lemma length_ptm3Sorted (S : Mat) (wmap : ℕ → ℕ → ℕ) (nf nd : ℕ) (freq dir : List ℚ) :
    (ptm3Sorted S wmap nf nd freq dir).length = npartsOf wmap nf nd := by
  rw [(ptm3Sorted_perm S wmap nf nd freq dir).length_eq, length_ptm3Partitions]

lemma le_npartsOf (wmap : ℕ → ℕ → ℕ) (nf nd i j : ℕ) (hi : i < nf) (hj : j < nd) :
    wmap i j ≤ npartsOf wmap nf nd := by
  refine le_trans ?_ (Finset.le_sup (f := fun i => (Finset.range nd).sup fun j => wmap i j)
    (Finset.mem_range.mpr hi))
  exact Finset.le_sup (Finset.mem_range.mpr hj)

lemma sum_region_indicator (n m : ℕ) (x : ℚ) :
    ((List.range n).map fun ip => if m = ip + 1 then x else 0).sum
      = if 1 ≤ m ∧ m ≤ n then x else 0 := by
  induction n with
  | zero =>
    have h : ¬ (1 ≤ m ∧ m ≤ 0) := by omega
    rw [if_neg h]
    simp
  | succ k ih =>
    rw [List.range_succ, List.map_append, List.sum_append, ih]
    by_cases hm : m = k + 1
    · have h1 : ¬ (1 ≤ m ∧ m ≤ k) := by omega
      have h2 : 1 ≤ m ∧ m ≤ k + 1 := by omega
      simp [hm, h1, h2]
    · by_cases h1 : 1 ≤ m ∧ m ≤ k
      · have h2 : 1 ≤ m ∧ m ≤ k + 1 := by omega
        simp [hm, h1, h2]
      · have h2 : ¬ (1 ≤ m ∧ m ≤ k + 1) := by omega
        simp [hm, h1, h2]

lemma region_cover (wmap : ℕ → ℕ → ℕ) (S : Mat) (nf nd i j : ℕ)
    (hi : i < nf) (hj : j < nd) (h0 : wmap i j = 0 → S i j = 0) :
    ((List.range (npartsOf wmap nf nd)).map fun ip => regionPart wmap S (ip + 1) i j).sum
      = S i j := by
  have : ((List.range (npartsOf wmap nf nd)).map fun ip => regionPart wmap S (ip + 1) i j)
      = ((List.range (npartsOf wmap nf nd)).map fun ip => if wmap i j = ip + 1 then S i j else 0) := by
    simp [regionPart]
  rw [this, sum_region_indicator]
  by_cases hz : wmap i j = 0
  · have h : ¬ (1 ≤ wmap i j ∧ wmap i j ≤ npartsOf wmap nf nd) := by omega
    simp [h, h0 hz]
  · have h : 1 ≤ wmap i j ∧ wmap i j ≤ npartsOf wmap nf nd :=
      ⟨by omega, le_npartsOf wmap nf nd i j hi hj⟩
    simp [h]

lemma matSum_nonneg (nf nd : ℕ) (S : Mat) (h : ∀ i < nf, ∀ j < nd, 0 ≤ S i j) :
    0 ≤ matSum nf nd S :=
  Finset.sum_nonneg fun i hi => Finset.sum_nonneg fun j hj =>
    h i (Finset.mem_range.mp hi) j (Finset.mem_range.mp hj)

lemma entries_zero_of_matSum_zero (nf nd : ℕ) (S : Mat)
    (h : ∀ i < nf, ∀ j < nd, 0 ≤ S i j) (hz : matSum nf nd S = 0) :
    ∀ i < nf, ∀ j < nd, S i j = 0 := by
  intro i hi j hj
  have houter : ∀ i ∈ Finset.range nf, (0:ℚ) ≤ ∑ j ∈ Finset.range nd, S i j :=
    fun i hi => Finset.sum_nonneg fun j hj =>
      h i (Finset.mem_range.mp hi) j (Finset.mem_range.mp hj)
  have hrow := (Finset.sum_eq_zero_iff_of_nonneg houter).mp hz i (Finset.mem_range.mpr hi)
  have hinner : ∀ j ∈ Finset.range nd, (0:ℚ) ≤ S i j :=
    fun j hj => h i hi j (Finset.mem_range.mp hj)
  exact (Finset.sum_eq_zero_iff_of_nonneg hinner).mp hrow j (Finset.mem_range.mpr hj)

lemma maskedSum_zero_of_entries (nf nd : ℕ) (mask : ℕ → ℕ → Bool) (S : Mat)
    (h : ∀ i < nf, ∀ j < nd, S i j = 0) : maskedSum nf nd mask S = 0 := by
  unfold maskedSum
  refine Finset.sum_eq_zero fun i hi => Finset.sum_eq_zero fun j hj => ?_
  rw [h i (Finset.mem_range.mp hi) j (Finset.mem_range.mp hj)]
  simp

lemma regionPart_nonneg (wmap : ℕ → ℕ → ℕ) (S : Mat) (k nf nd : ℕ)
    (hS : ∀ i < nf, ∀ j < nd, 0 ≤ S i j) :
    ∀ i < nf, ∀ j < nd, 0 ≤ regionPart wmap S k i j := by
  intro i hi j hj
  unfold regionPart
  split
  · exact hS i hi j hj
  · exact le_refl 0

lemma classifyWS_eq_frac (S : Mat) (wmap : ℕ → ℕ → ℕ) (nf nd : ℕ)
    (mask : ℕ → ℕ → Bool) (wscut : ℚ) (k : ℕ)
    (hS : ∀ i < nf, ∀ j < nd, 0 ≤ S i j) :
    classifyWS S wmap nf nd mask wscut k
      = decide (0 < matSum nf nd (regionPart wmap S k)
          ∧ wscut < maskedSum nf nd mask (regionPart wmap S k)
              / matSum nf nd (regionPart wmap S k)) := by
  have hnn := regionPart_nonneg wmap S k nf nd hS
  unfold classifyWS wsfracExceeds
  by_cases hp : matSum nf nd (regionPart wmap S k) = 0
  · rw [if_pos hp]
    have hz := entries_zero_of_matSum_zero nf nd _ hnn hp
    have hm : maskedSum nf nd mask (regionPart wmap S k) = 0 :=
      maskedSum_zero_of_entries nf nd mask _ hz
    rw [hm, hp, decide_eq_decide]
    simp
  · rw [if_neg hp, decide_eq_decide]
    have hp' : 0 < matSum nf nd (regionPart wmap S k) :=
      lt_of_le_of_ne (matSum_nonneg nf nd _ hnn) (Ne.symm hp)
    exact (and_iff_right hp').symm

lemma npHs_le_npHs (nf nd : ℕ) (freq dir : List ℚ) (a b : Mat)
    (h : m0 nf nd freq dir a ≤ m0 nf nd freq dir b) :
    npHs nf nd freq dir a ≤ npHs nf nd freq dir b := by
  unfold npHs
  have hc : ((m0 nf nd freq dir a : ℚ) : ℝ) ≤ ((m0 nf nd freq dir b : ℚ) : ℝ) := by
    exact_mod_cast h
  exact mul_le_mul_of_nonneg_left (Real.sqrt_le_sqrt hc) (by norm_num)

lemma npHs_lt_npHs (nf nd : ℕ) (freq dir : List ℚ) (a b : Mat)
    (ha : 0 ≤ m0 nf nd freq dir a) (h : m0 nf nd freq dir a < m0 nf nd freq dir b) :
    npHs nf nd freq dir a < npHs nf nd freq dir b := by
  unfold npHs
  have ha' : (0:ℝ) ≤ ((m0 nf nd freq dir a : ℚ) : ℝ) := by exact_mod_cast ha
  have hc : ((m0 nf nd freq dir a : ℚ) : ℝ) < ((m0 nf nd freq dir b : ℚ) : ℝ) := by
    exact_mod_cast h
  exact mul_lt_mul_of_pos_left (Real.sqrt_lt_sqrt ha' hc) (by norm_num)

lemma windseamaskB_wspd_zero (cel : ℝ → ℝ → ℝ) (freq dir : List ℚ)
    (wdir dpt agefac : ℝ) (hcel : ∀ x y : ℝ, 0 < cel x y) :
    windseamaskB cel freq dir 0 wdir dpt agefac = fun _ _ => false := by
  funext i j
  unfold windseamaskB
  apply decide_eq_false
  intro hgt
  have h0 : agefac * (0:ℝ) * Real.cos (D2R * (((dir.getD j 0 : ℚ) : ℝ) - wdir)) = 0 := by
    ring
  rw [h0] at hgt
  have := hcel ((freq.getD i 0 : ℚ) : ℝ) dpt
  linarith

lemma celC_pos : ∀ x y : ℝ, 0 < celC x y := fun _ _ => one_pos

lemma np_ptm1_wspd_zero (wshed : Mat → ℕ → ℕ → ℕ → ℕ → ℕ) (cel : ℝ → ℝ → ℝ)
    (S Ssm : Mat) (nf nd : ℕ) (freq dir : List ℚ) (wdir dpt agefac : ℝ)
    (wscut : ℚ) (swells : Option ℤ) (combine : Bool)
    (hcel : ∀ x y : ℝ, 0 < cel x y) :
    np_ptm1 wshed cel S Ssm nf nd freq dir 0 wdir dpt agefac wscut swells combine
      = np_ptm1Core S (wshed Ssm nf nd) nf nd (fun _ _ => false) freq dir wscut
          swells combine := by
  unfold np_ptm1
  rw [windseamaskB_wspd_zero cel freq dir wdir dpt agefac hcel]

lemma wsea_add_swell_sum (S : Mat) (wmap : ℕ → ℕ → ℕ) (nf nd : ℕ)
    (mask : ℕ → ℕ → Bool) (wscut : ℚ) (freq dir : List ℚ) (i j : ℕ)
    (hi : i < nf) (hj : j < nd) (h0 : wmap i j = 0 → S i j = 0) :
    wseaPartition S wmap nf nd mask wscut i j
      + ((sortedSwellList S wmap nf nd mask wscut freq dir).map fun p => p i j).sum
      = S i j := by
  rw [((sortedSwellList_perm S wmap nf nd mask wscut freq dir).map fun p => p i j).sum_eq]
  unfold wseaPartition swellPartitionsRaw
  rw [foldl_condAdd_apply, List.map_map]
  have hz : zeroM i j = 0 := rfl
  rw [hz, zero_add]
  have hcongr : ((List.range (npartsOf wmap nf nd)).map
        ((fun p : Mat => p i j) ∘ fun ipart =>
          if classifyWS S wmap nf nd mask wscut (ipart + 1) then zeroM
          else matAdd zeroM (regionPart wmap S (ipart + 1))))
      = (List.range (npartsOf wmap nf nd)).map fun ipart =>
          if classifyWS S wmap nf nd mask wscut (ipart + 1) then 0
          else regionPart wmap S (ipart + 1) i j := by
    refine List.map_congr_left fun a _ => ?_
    by_cases hc : classifyWS S wmap nf nd mask wscut (a + 1) <;>
      simp [hc, Function.comp, zeroM, matAdd]
  rw [hcongr, ← List.sum_map_add]
  have hcongr2 : ((List.range (npartsOf wmap nf nd)).map fun ipart =>
        (if classifyWS S wmap nf nd mask wscut (ipart + 1) then
            regionPart wmap S (ipart + 1) i j else 0)
          + (if classifyWS S wmap nf nd mask wscut (ipart + 1) then 0
            else regionPart wmap S (ipart + 1) i j))
      = (List.range (npartsOf wmap nf nd)).map fun ipart =>
          regionPart wmap S (ipart + 1) i j := by
    refine List.map_congr_left fun a _ => ?_
    by_cases hc : classifyWS S wmap nf nd mask wscut (a + 1) <;> simp [hc]
  rw [hcongr2]
  exact region_cover wmap S nf nd i j hi hj h0

lemma ptm3Sorted_sum (S : Mat) (wmap : ℕ → ℕ → ℕ) (nf nd : ℕ)
    (freq dir : List ℚ) (i j : ℕ) (hi : i < nf) (hj : j < nd)
    (h0 : wmap i j = 0 → S i j = 0) :
    ((ptm3Sorted S wmap nf nd freq dir).map fun p => p i j).sum = S i j := by
  rw [((ptm3Sorted_perm S wmap nf nd freq dir).map fun p => p i j).sum_eq]
  unfold ptm3Partitions
  rw [List.map_map]
  exact region_cover wmap S nf nd i j hi hj h0

lemma np_ptm1Core_sum (S : Mat) (wmap : ℕ → ℕ → ℕ) (nf nd : ℕ)
    (mask : ℕ → ℕ → Bool) (freq dir : List ℚ) (wscut : ℚ) (s : ℤ)
    (hs : (npartsOf wmap nf nd : ℤ) ≤ s) (i j : ℕ) (hi : i < nf) (hj : j < nd)
    (h0 : wmap i j = 0 → S i j = 0) :
    stackSum (np_ptm1Core S wmap nf nd mask freq dir wscut (some s) false) i j
      = S i j := by
  have hns : ¬ (s < (npartsOf wmap nf nd : ℤ)) := not_lt.mpr hs
  have hbody : np_ptm1Core S wmap nf nd mask freq dir wscut (some s) false
      = wseaPartition S wmap nf nd mask wscut ::
          (sortedSwellList S wmap nf nd mask wscut freq dir
            ++ List.replicate (s - (npartsOf wmap nf nd : ℤ)).toNat zeroM) := by
    by_cases hlt : (npartsOf wmap nf nd : ℤ) < s
    · simp [np_ptm1Core, hns, hlt]
    · have h0' : (s - (npartsOf wmap nf nd : ℤ)).toNat = 0 := by omega
      simp [np_ptm1Core, hns, hlt, h0']
  rw [hbody, stackSum_apply]
  simp only [List.map_cons, List.sum_cons, List.map_append, List.sum_append]
  have hrep : ((List.replicate (s - (npartsOf wmap nf nd : ℤ)).toNat zeroM).map
      fun p => p i j).sum = 0 := by
    simp [zeroM]
  rw [hrep, add_zero]
  exact wsea_add_swell_sum S wmap nf nd mask wscut freq dir i j hi hj h0

lemma np_ptm3Core_sum (S : Mat) (wmap : ℕ → ℕ → ℕ) (nf nd : ℕ)
    (freq dir : List ℚ) (p : ℤ)
    (hp : (npartsOf wmap nf nd : ℤ) ≤ p) (i j : ℕ) (hi : i < nf) (hj : j < nd)
    (h0 : wmap i j = 0 → S i j = 0) :
    stackSum (np_ptm3Core S wmap nf nd freq dir (some p) false) i j = S i j := by
  have hns : ¬ (p < (npartsOf wmap nf nd : ℤ)) := not_lt.mpr hp
  have hbody : np_ptm3Core S wmap nf nd freq dir (some p) false
      = ptm3Sorted S wmap nf nd freq dir
          ++ List.replicate (p - (npartsOf wmap nf nd : ℤ)).toNat zeroM := by
    by_cases hlt : (npartsOf wmap nf nd : ℤ) < p
    · simp [np_ptm3Core, hns, hlt]
    · have h0' : (p - (npartsOf wmap nf nd : ℤ)).toNat = 0 := by omega
      simp [np_ptm3Core, hns, hlt, h0']
  rw [hbody, stackSum_apply]
  simp only [List.map_append, List.sum_append]
  have hrep : ((List.replicate (p - (npartsOf wmap nf nd : ℤ)).toNat zeroM).map
      fun q => q i j).sum = 0 := by
    simp [zeroM]
  rw [hrep, add_zero]
  exact ptm3Sorted_sum S wmap nf nd freq dir i j hi hj h0

lemma length_foldl_addToClosest (nf nd : ℕ) (freq dir : List ℚ) :
    ∀ (l acc : List Mat), (l.foldl (addToClosest nf nd freq dir) acc).length = acc.length := by
  intro l
  induction l with
  | nil => intro acc; rfl
  | cons h t ih =>
    intro acc
    rw [List.foldl_cons, ih]
    simp [addToClosest]

lemma length_combine_partitions (parts : List Mat) (nf nd : ℕ) (freq dir : List ℚ)
    (keep : ℤ) :
    (combine_partitions parts nf nd freq dir keep).length = (pySliceTo parts keep).length := by
  simp [combine_partitions, length_foldl_addToClosest]

lemma length_pySliceTo_nonneg {α : Type} (l : List α) (n : ℤ) (hn : 0 ≤ n) :
    (pySliceTo l n).length = min n.toNat l.length := by
  simp [pySliceTo, hn, List.length_take]

lemma length_pySliceTo_neg {α : Type} (l : List α) (n : ℤ) (hn : n < 0) :
    (pySliceTo l n).length = l.length - (-n).toNat := by
  have h : ¬ (0:ℤ) ≤ n := by omega
  simp [pySliceTo, h, List.length_take, Nat.min_eq_left (Nat.sub_le _ _)]

lemma np_ptm1Core_headD (S : Mat) (wmap : ℕ → ℕ → ℕ) (nf nd : ℕ)
    (mask : ℕ → ℕ → Bool) (freq dir : List ℚ) (wscut : ℚ) (swells : Option ℤ)
    (combine : Bool) :
    (np_ptm1Core S wmap nf nd mask freq dir wscut swells combine).headD zeroM
      = wseaPartition S wmap nf nd mask wscut := rfl

lemma np_ptm1Core_length (S : Mat) (wmap : ℕ → ℕ → ℕ) (nf nd : ℕ)
    (mask : ℕ → ℕ → Bool) (freq dir : List ℚ) (wscut : ℚ) (s : ℤ) (combine : Bool)
    (hs : 0 ≤ s) :
    (np_ptm1Core S wmap nf nd mask freq dir wscut (some s) combine).length
      = s.toNat + 1 := by
  have hlen := length_sortedSwellList S wmap nf nd mask wscut freq dir
  by_cases hlt : s < (npartsOf wmap nf nd : ℤ)
  · cases combine with
    | true =>
      simp [np_ptm1Core, hlt, length_combine_partitions,
        length_pySliceTo_nonneg _ _ hs, hlen]
      omega
    | false =>
      simp [np_ptm1Core, hlt, length_pySliceTo_nonneg _ _ hs, hlen]
      omega
  · by_cases hgt : (npartsOf wmap nf nd : ℤ) < s
    · cases combine <;>
        · simp [np_ptm1Core, hlt, hgt, hlen]
          omega
    · cases combine <;>
        · simp [np_ptm1Core, hlt, hgt, hlen]
          omega

lemma np_ptm1Core_drop_pad (S : Mat) (wmap : ℕ → ℕ → ℕ) (nf nd : ℕ)
    (mask : ℕ → ℕ → Bool) (freq dir : List ℚ) (wscut : ℚ) (s : ℤ) (combine : Bool)
    (hlt : (npartsOf wmap nf nd : ℤ) < s) :
    (np_ptm1Core S wmap nf nd mask freq dir wscut (some s) combine).drop
        (npartsOf wmap nf nd + 1)
      = List.replicate (s.toNat - npartsOf wmap nf nd) zeroM := by
  have hns : ¬ s < (npartsOf wmap nf nd : ℤ) := by omega
  have hbody : np_ptm1Core S wmap nf nd mask freq dir wscut (some s) combine
      = wseaPartition S wmap nf nd mask wscut ::
          (sortedSwellList S wmap nf nd mask wscut freq dir
            ++ List.replicate (s - (npartsOf wmap nf nd : ℤ)).toNat zeroM) := by
    cases combine <;> simp [np_ptm1Core, hns, hlt]
  rw [hbody, List.drop_succ_cons]
  have hlen := length_sortedSwellList S wmap nf nd mask wscut freq dir
  rw [show npartsOf wmap nf nd
      = (sortedSwellList S wmap nf nd mask wscut freq dir).length from hlen.symm,
    List.drop_left]
  congr 1
  omega

lemma np_ptm1Core_length_neg (S : Mat) (wmap : ℕ → ℕ → ℕ) (nf nd : ℕ)
    (mask : ℕ → ℕ → Bool) (freq dir : List ℚ) (wscut : ℚ) (s : ℤ) (hs : s < 0) :
    (np_ptm1Core S wmap nf nd mask freq dir wscut (some s) false).length
      = 1 + (npartsOf wmap nf nd - (-s).toNat) := by
  have hlt : s < (npartsOf wmap nf nd : ℤ) := by omega
  have hlen := length_sortedSwellList S wmap nf nd mask wscut freq dir
  simp [np_ptm1Core, hlt, length_pySliceTo_neg _ _ hs, hlen]
  omega

lemma np_ptm3Core_length_neg (S : Mat) (wmap : ℕ → ℕ → ℕ) (nf nd : ℕ)
    (freq dir : List ℚ) (p : ℤ) (hp : p < 0) :
    (np_ptm3Core S wmap nf nd freq dir (some p) false).length
      = npartsOf wmap nf nd - (-p).toNat := by
  have hlt : p < (npartsOf wmap nf nd : ℤ) := by omega
  have hlen := length_ptm3Sorted S wmap nf nd freq dir
  simp [np_ptm3Core, hlt, length_pySliceTo_neg _ _ hp, hlen]

lemma swellPartitionsRaw_getD (S : Mat) (wmap : ℕ → ℕ → ℕ) (nf nd : ℕ)
    (mask : ℕ → ℕ → Bool) (wscut : ℚ) (k : ℕ) (hk1 : 1 ≤ k)
    (hk2 : k ≤ npartsOf wmap nf nd) :
    (swellPartitionsRaw S wmap nf nd mask wscut).getD (k - 1) zeroM
      = if classifyWS S wmap nf nd mask wscut k then zeroM
        else regionPart wmap S k := by
  unfold swellPartitionsRaw
  rw [List.getD_eq_getElem?_getD, List.getElem?_map, List.getElem?_range (by omega)]
  have hk : k - 1 + 1 = k := by omega
  simp only [Option.map_some', Option.getD_some, hk, matAdd_zeroM]

lemma sum_Sf_df (freq dir : List ℚ) (S : Mat) :
    (∑ i ∈ Finset.range freq.length, onedRow dir S i * (dfList freq).getD i 0)
      = zerothMoment freq dir S := by
  unfold zerothMoment onedRow
  exact Finset.sum_congr rfl fun i _ => by ring

lemma hsE_false_eq_zerothMoment (freq dir : List ℚ) (S : Mat) :
    hsE false freq dir S = zerothMoment freq dir S := by
  unfold hsE
  simp only [Bool.false_eq_true, false_and, if_false]
  exact sum_Sf_df freq dir S

lemma hsE_true_no_tail (freq dir : List ℚ) (S : Mat)
    (h : ¬ 333/1000 < freq.getD (freq.length - 1) 0) :
    hsE true freq dir S = zerothMoment freq dir S := by
  unfold hsE
  rw [if_neg (fun hc => h hc.2)]
  exact sum_Sf_df freq dir S

lemma hsE_true_tail (freq dir : List ℚ) (S : Mat)
    (h : 333/1000 < freq.getD (freq.length - 1) 0) :
    hsE true freq dir S
      = zerothMoment freq dir S
        + 1/4 * onedRow dir S (freq.length - 1) * freq.getD (freq.length - 1) 0 := by
  unfold hsE
  rw [if_pos ⟨rfl, h⟩, sum_Sf_df]

lemma ptm5_of_mem (S : Mat) (freq dir : List ℚ) (fcut : ℚ) (itp : Bool)
    (hmem : fcut ∈ freq) :
    ptm5 S freq dir fcut itp
      = ([fun i j => if fcut ≤ (ptm5Freq freq).getD i 0 then ptm5SortedS S freq dir i j else 0,
          fun i j => if (ptm5Freq freq).getD i 0 ≤ fcut then ptm5SortedS S freq dir i j else 0],
         ptm5Freq freq) := by
  have h : ¬ (itp = true ∧ ¬ fcut ∈ freq) := fun hc => hc.2 hmem
  simp [ptm5, h]

/-- C2: for PTM1 and PTM3 with `combine=False` and a requested partition
count at least the number of detected watershed regions, the bin-for-bin sum
of all output partitions (wind-sea slot included for PTM1) equals the
original input spectrum.  The hypothesis `h0` is the watershed-engine
guarantee (spec section 4.1) that background cells (region id 0) carry no
energy. -/
theorem ptm1_ptm3_energy_conservation
    (wshed : Mat → ℕ → ℕ → ℕ → ℕ → ℕ) (cel : ℝ → ℝ → ℝ) (S Ssm : Mat)
    (nf nd : ℕ) (freq dir : List ℚ) (wspd wdir dpt agefac : ℝ) (wscut : ℚ)
    (s p : ℤ)
    (h0 : ∀ i < nf, ∀ j < nd, wshed Ssm nf nd i j = 0 → S i j = 0)
    (hs : (npartsOf (wshed Ssm nf nd) nf nd : ℤ) ≤ s)
    (hp : (npartsOf (wshed Ssm nf nd) nf nd : ℤ) ≤ p) :
    ∀ i < nf, ∀ j < nd,
      stackSum (np_ptm1 wshed cel S Ssm nf nd freq dir wspd wdir dpt agefac wscut
        (some s) false) i j = S i j
      ∧ stackSum (np_ptm3 wshed S Ssm nf nd freq dir (some p) false) i j = S i j := by
  intro i hi j hj
  constructor
  · exact np_ptm1Core_sum S (wshed Ssm nf nd) nf nd
      (windseamaskB cel freq dir wspd wdir dpt agefac) freq dir wscut s hs i j hi hj
      (h0 i hi j hj)
  · exact np_ptm3Core_sum S (wshed Ssm nf nd) nf nd freq dir p hp i j hi hj
      (h0 i hi j hj)

/-- C3: for every call of `np_ptm1` with a non-negative `swells` the output
has exactly `swells + 1` partitions, slot 0 is the wind-sea partition, and
when fewer regions are detected than `swells` the trailing
`swells - nparts` slots are all-zero spectra. -/
theorem np_ptm1_output_shape
    (wshed : Mat → ℕ → ℕ → ℕ → ℕ → ℕ) (cel : ℝ → ℝ → ℝ) (S Ssm : Mat)
    (nf nd : ℕ) (freq dir : List ℚ) (wspd wdir dpt agefac : ℝ) (wscut : ℚ)
    (s : ℤ) (combine : Bool) (hs : 0 ≤ s) :
    (np_ptm1 wshed cel S Ssm nf nd freq dir wspd wdir dpt agefac wscut
        (some s) combine).length = s.toNat + 1
    ∧ (np_ptm1 wshed cel S Ssm nf nd freq dir wspd wdir dpt agefac wscut
        (some s) combine).headD zeroM
      = wseaPartition S (wshed Ssm nf nd) nf nd
          (windseamaskB cel freq dir wspd wdir dpt agefac) wscut
    ∧ ((npartsOf (wshed Ssm nf nd) nf nd : ℤ) < s →
        (np_ptm1 wshed cel S Ssm nf nd freq dir wspd wdir dpt agefac wscut
            (some s) combine).drop (npartsOf (wshed Ssm nf nd) nf nd + 1)
          = List.replicate (s.toNat - npartsOf (wshed Ssm nf nd) nf nd) zeroM) :=
  ⟨np_ptm1Core_length S (wshed Ssm nf nd) nf nd
      (windseamaskB cel freq dir wspd wdir dpt agefac) freq dir wscut s combine hs,
    np_ptm1Core_headD S (wshed Ssm nf nd) nf nd
      (windseamaskB cel freq dir wspd wdir dpt agefac) freq dir wscut (some s) combine,
    fun hlt => np_ptm1Core_drop_pad S (wshed Ssm nf nd) nf nd
      (windseamaskB cel freq dir wspd wdir dpt agefac) freq dir wscut s combine hlt⟩

/-- C9: with `swells=None`, `np_ptm1` keeps exactly the swell partitions of
positive total energy after the wind-sea slot, so the output is the wind-sea
partition followed by the filtered ordered swell list, of length
`1 + (number of swell candidates with positive total energy)`. -/
theorem np_ptm1_none_drops_null
    (wshed : Mat → ℕ → ℕ → ℕ → ℕ → ℕ) (cel : ℝ → ℝ → ℝ) (S Ssm : Mat)
    (nf nd : ℕ) (freq dir : List ℚ) (wspd wdir dpt agefac : ℝ) (wscut : ℚ)
    (combine : Bool) :
    np_ptm1 wshed cel S Ssm nf nd freq dir wspd wdir dpt agefac wscut none combine
      = wseaPartition S (wshed Ssm nf nd) nf nd
          (windseamaskB cel freq dir wspd wdir dpt agefac) wscut
        :: (sortedSwellList S (wshed Ssm nf nd) nf nd
              (windseamaskB cel freq dir wspd wdir dpt agefac) wscut freq dir).filter
             (fun q => decide (0 < matSum nf nd q))
    ∧ (np_ptm1 wshed cel S Ssm nf nd freq dir wspd wdir dpt agefac wscut
        none combine).length
      = 1 + (swellPartitionsRaw S (wshed Ssm nf nd) nf nd
          (windseamaskB cel freq dir wspd wdir dpt agefac) wscut).countP
            (fun q => decide (0 < matSum nf nd q)) := by
  constructor
  · rfl
  · show (np_ptm1Core S (wshed Ssm nf nd) nf nd
        (windseamaskB cel freq dir wspd wdir dpt agefac) freq dir wscut
        none combine).length = _
    have hbody : np_ptm1Core S (wshed Ssm nf nd) nf nd
        (windseamaskB cel freq dir wspd wdir dpt agefac) freq dir wscut
        none combine
        = wseaPartition S (wshed Ssm nf nd) nf nd
            (windseamaskB cel freq dir wspd wdir dpt agefac) wscut
          :: (sortedSwellList S (wshed Ssm nf nd) nf nd
                (windseamaskB cel freq dir wspd wdir dpt agefac) wscut freq dir).filter
               (fun q => decide (0 < matSum nf nd q)) := rfl
    rw [hbody, List.length_cons, ← List.countP_eq_length_filter,
      (sortedSwellList_perm S (wshed Ssm nf nd) nf nd
        (windseamaskB cel freq dir wspd wdir dpt agefac) wscut freq dir).countP_eq]
    omega

/-- C5: in `np_ptm1` a watershed region with nonzero energy is folded in
full into the wind-sea partition (slot 0 of the output) exactly when the
fraction of its raw energy lying in wind-forced bins exceeds `wscut` (the
mask `windseamaskB` is the wave-age criterion
`agefac * wspd * cos(D2R * (dir - wdir)) > celerity(freq, dpt)`); otherwise
the region stays a swell candidate in its loop slot. -/
theorem np_ptm1_wind_sea_rule
    (wshed : Mat → ℕ → ℕ → ℕ → ℕ → ℕ) (cel : ℝ → ℝ → ℝ) (S Ssm : Mat)
    (nf nd : ℕ) (freq dir : List ℚ) (wspd wdir dpt agefac : ℝ) (wscut : ℚ)
    (swells : Option ℤ) (combine : Bool) (k : ℕ)
    (hS : ∀ i < nf, ∀ j < nd, 0 ≤ S i j)
    (hk1 : 1 ≤ k) (hk2 : k ≤ npartsOf (wshed Ssm nf nd) nf nd)
    (hps : matSum nf nd (regionPart (wshed Ssm nf nd) S k) ≠ 0) :
    ((np_ptm1 wshed cel S Ssm nf nd freq dir wspd wdir dpt agefac wscut
        swells combine).headD zeroM
      = wseaPartition S (wshed Ssm nf nd) nf nd
          (windseamaskB cel freq dir wspd wdir dpt agefac) wscut)
    ∧ (∀ i < nf, ∀ j < nd,
        wseaPartition S (wshed Ssm nf nd) nf nd
            (windseamaskB cel freq dir wspd wdir dpt agefac) wscut i j
          = ((List.range (npartsOf (wshed Ssm nf nd) nf nd)).map fun ip =>
              if 0 < matSum nf nd (regionPart (wshed Ssm nf nd) S (ip + 1))
                  ∧ wscut < maskedSum nf nd
                        (windseamaskB cel freq dir wspd wdir dpt agefac)
                        (regionPart (wshed Ssm nf nd) S (ip + 1))
                      / matSum nf nd (regionPart (wshed Ssm nf nd) S (ip + 1))
              then regionPart (wshed Ssm nf nd) S (ip + 1) i j else 0).sum)
    ∧ ((swellPartitionsRaw S (wshed Ssm nf nd) nf nd
          (windseamaskB cel freq dir wspd wdir dpt agefac) wscut).getD (k - 1) zeroM
        = if wscut < maskedSum nf nd (windseamaskB cel freq dir wspd wdir dpt agefac)
                (regionPart (wshed Ssm nf nd) S k)
              / matSum nf nd (regionPart (wshed Ssm nf nd) S k)
          then zeroM else regionPart (wshed Ssm nf nd) S k) := by
  refine ⟨np_ptm1Core_headD S (wshed Ssm nf nd) nf nd
      (windseamaskB cel freq dir wspd wdir dpt agefac) freq dir wscut swells combine,
    ?_, ?_⟩
  · intro i hi j hj
    unfold wseaPartition
    rw [foldl_condAdd_apply]
    have hz : zeroM i j = 0 := rfl
    rw [hz, zero_add]
    refine congrArg List.sum (List.map_congr_left fun a _ => ?_)
    rw [classifyWS_eq_frac S (wshed Ssm nf nd) nf nd
      (windseamaskB cel freq dir wspd wdir dpt agefac) wscut (a + 1) hS]
    simp only [decide_eq_true_eq]
  · rw [swellPartitionsRaw_getD S (wshed Ssm nf nd) nf nd
        (windseamaskB cel freq dir wspd wdir dpt agefac) wscut k hk1 hk2,
      classifyWS_eq_frac S (wshed Ssm nf nd) nf nd
        (windseamaskB cel freq dir wspd wdir dpt agefac) wscut k hS]
    have hnn := regionPart_nonneg (wshed Ssm nf nd) S k nf nd hS
    have hp' : 0 < matSum nf nd (regionPart (wshed Ssm nf nd) S k) :=
      lt_of_le_of_ne (matSum_nonneg nf nd _ hnn) (Ne.symm hps)
    simp only [decide_eq_true_eq, hp', true_and]

/-- C7: a watershed region with zero total raw energy makes `np_ptm1`
evaluate `part[mask].sum() / part.sum()` as the float `0.0/0.0` (NaN); the
comparison with `wscut` then behaves exactly like a zero fraction for any
nonnegative cutoff, the region is not assigned to the wind sea, and the Hs
ranking key of its swell slot is the well-defined value 0 (no NaN enters
the ranking). -/
theorem zero_region_classification (S : Mat) (wmap : ℕ → ℕ → ℕ) (nf nd : ℕ)
    (mask : ℕ → ℕ → Bool) (wscut : ℚ) (freq dir : List ℚ) (k : ℕ)
    (hS : ∀ i < nf, ∀ j < nd, 0 ≤ S i j)
    (hk1 : 1 ≤ k) (hk2 : k ≤ npartsOf wmap nf nd)
    (hzero : matSum nf nd (regionPart wmap S k) = 0)
    (hw : 0 ≤ wscut) :
    classifyWS S wmap nf nd mask wscut k = false
    ∧ classifyWS S wmap nf nd mask wscut k = decide (wscut < 0)
    ∧ npHs nf nd freq dir
        ((swellPartitionsRaw S wmap nf nd mask wscut).getD (k - 1) zeroM) = 0 := by
  have hnn := regionPart_nonneg wmap S k nf nd hS
  have hz := entries_zero_of_matSum_zero nf nd _ hnn hzero
  have hm := maskedSum_zero_of_entries nf nd mask _ hz
  have hc : classifyWS S wmap nf nd mask wscut k = false := by
    unfold classifyWS wsfracExceeds
    rw [if_pos hzero, hm]
    simp
  refine ⟨hc, ?_, ?_⟩
  · rw [hc]
    symm
    exact decide_eq_false (not_lt.mpr hw)
  · rw [swellPartitionsRaw_getD S wmap nf nd mask wscut k hk1 hk2, hc, if_neg
      (by simp)]
    have hm0 : m0 nf nd freq dir (regionPart wmap S k) = 0 := by
      unfold m0
      rw [Finset.sum_eq_zero, mul_zero]
      intro i hi
      rw [Finset.sum_eq_zero, mul_zero]
      intro j hj
      exact hz i (Finset.mem_range.mp hi) j (Finset.mem_range.mp hj)
    unfold npHs
    rw [hm0]
    simp

/-- C8 (as amended): `SpecArray.hs` is 4 x sqrt of the zeroth spectral
moment when `tail=False` or when the last frequency does not exceed
0.333 Hz; with the default `tail=True` and a last frequency above 0.333 Hz
the high-frequency tail term `0.25 * Sf[-1] * freq[-1]` is added to the
moment before the square root. -/
theorem specarray_hs_moment_form (freq dir : List ℚ) (S : Mat) :
    specArrayHs false freq dir S = 4 * Real.sqrt ((zerothMoment freq dir S : ℚ) : ℝ)
    ∧ (¬ 333/1000 < freq.getD (freq.length - 1) 0 →
        specArrayHs true freq dir S
          = 4 * Real.sqrt ((zerothMoment freq dir S : ℚ) : ℝ))
    ∧ (333/1000 < freq.getD (freq.length - 1) 0 →
        specArrayHs true freq dir S
          = 4 * Real.sqrt (((zerothMoment freq dir S
              + 1/4 * onedRow dir S (freq.length - 1)
                * freq.getD (freq.length - 1) 0 : ℚ)) : ℝ)) := by
  refine ⟨?_, fun h => ?_, fun h => ?_⟩
  · unfold specArrayHs
    rw [hsE_false_eq_zerothMoment]
  · unfold specArrayHs
    rw [hsE_true_no_tail freq dir S h]
  · unfold specArrayHs
    rw [hsE_true_tail freq dir S h]

/-- C10: with a single frequency bin, `SpecArray.df` is the one-element
array `[1.0]`, so the frequency integrations of `momf` and `hs` treat the
single bin as having unit width. -/
theorem df_single_frequency_unit (f : ℚ) (mom : ℕ) (dir : List ℚ) (S : Mat) (j : ℕ) :
    dfList [f] = [1]
    ∧ momfArr mom [f] S j = f ^ mom * S 0 j
    ∧ hsE false [f] dir S = ddQ dir * ∑ jj ∈ Finset.range dir.length, S 0 jj := by
  refine ⟨rfl, ?_, ?_⟩
  · unfold momfArr
    simp [dfList, Finset.sum_range_one]
  · unfold hsE onedRow
    simp [dfList, Finset.sum_range_one]

/-- C4 (as amended): for a cutoff present in the frequency coordinate,
`ptm5` returns exactly 2 partitions over the coordinate-sorted grid; the
high-frequency partition vanishes strictly below the cutoff, the
low-frequency partition vanishes strictly above it, and the bin-for-bin sum
reproduces the (sorted) input spectrum except at the cutoff row itself,
which both partitions keep, so it is counted twice. -/
theorem ptm5_split_shape (S : Mat) (freq dir : List ℚ) (fcut : ℚ) (itp : Bool)
    (hmem : fcut ∈ freq) :
    (ptm5 S freq dir fcut itp).1.length = 2
    ∧ (ptm5 S freq dir fcut itp).2 = ptm5Freq freq
    ∧ (∀ i j : ℕ, (ptm5Freq freq).getD i 0 < fcut →
        (ptm5 S freq dir fcut itp).1.getD 0 zeroM i j = 0)
    ∧ (∀ i j : ℕ, fcut < (ptm5Freq freq).getD i 0 →
        (ptm5 S freq dir fcut itp).1.getD 1 zeroM i j = 0)
    ∧ (∀ i j : ℕ,
        (ptm5 S freq dir fcut itp).1.getD 0 zeroM i j
          + (ptm5 S freq dir fcut itp).1.getD 1 zeroM i j
        = ptm5SortedS S freq dir i j
          + (if (ptm5Freq freq).getD i 0 = fcut then ptm5SortedS S freq dir i j
            else 0)) := by
  rw [ptm5_of_mem S freq dir fcut itp hmem]
  refine ⟨rfl, rfl, ?_, ?_, ?_⟩
  · intro i j h
    rw [List.getD_eq_getElem?_getD] at h
    simp [not_le.mpr h]
  · intro i j h
    rw [List.getD_eq_getElem?_getD] at h
    simp [not_le.mpr h]
  · intro i j
    rcases lt_trichotomy ((ptm5Freq freq).getD i 0) fcut with h|h|h <;>
      rw [List.getD_eq_getElem?_getD] at h
    · simp [not_le.mpr h, le_of_lt h, ne_of_lt h]
    · simp [h]
    · simp [not_le.mpr h, le_of_lt h, ne_of_gt h]

unseal Rat.add Rat.mul Rat.inv Rat.sub in
/-- C8 counterexample: with frequencies [0.1, 0.4] (last above 0.333 Hz) and
a unit spectrum, the default `SpecArray.hs()` includes the high-frequency
tail term, so it is not 4 x sqrt of the zeroth spectral moment. -/
theorem specarray_hs_has_tail_term :
    specArrayHs true freqT dirC onesM
      ≠ 4 * Real.sqrt ((zerothMoment freqT dirC onesM : ℚ) : ℝ) := by
  have h1 : hsE true freqT dirC onesM = 7/5 := by decide
  have h2 : zerothMoment freqT dirC onesM = 6/5 := by decide
  unfold specArrayHs
  rw [h1, h2]
  apply ne_of_gt
  have hlt : Real.sqrt (((6/5 : ℚ) : ℚ) : ℝ) < Real.sqrt (((7/5 : ℚ) : ℚ) : ℝ) := by
    apply Real.sqrt_lt_sqrt
    · push_cast
      norm_num
    · push_cast
      norm_num
  have := mul_lt_mul_of_pos_left hlt (by norm_num : (0:ℝ) < 4)
  exact this

unseal Rat.add Rat.mul Rat.inv Rat.sub in
/-- C8 witness for the amended statement: at frequencies [0.1, 0.4] the tail
branch applies and `hs` is 4 x sqrt of the moment plus the tail term. -/
theorem specarray_hs_moment_form_witness :
    ((333:ℚ)/1000 < freqT.getD (freqT.length - 1) 0)
    ∧ specArrayHs true freqT dirC onesM
      = 4 * Real.sqrt (((zerothMoment freqT dirC onesM
          + 1/4 * onedRow dirC onesM (freqT.length - 1)
            * freqT.getD (freqT.length - 1) 0 : ℚ)) : ℝ) :=
  ⟨by decide, (specarray_hs_moment_form freqT dirC onesM).2.2 (by decide)⟩

unseal Rat.add Rat.mul Rat.inv Rat.sub in
/-- C4 counterexample: with the cutoff 0.4 present in the frequency axis and
a unit spectrum, the two `ptm5` partitions both keep the cutoff row, so the
bin-for-bin sum at that row is 2, not the original 1. -/
theorem ptm5_cutoff_double_count :
    ((ptm5 onesM freqT dirC (2/5) true).1.getD 0 zeroM) 1 0
      + ((ptm5 onesM freqT dirC (2/5) true).1.getD 1 zeroM) 1 0
      ≠ ptm5SortedS onesM freqT dirC 1 0 := by
  decide

unseal Rat.add Rat.mul Rat.inv Rat.sub in
/-- C4 witness for the amended statement. -/
theorem ptm5_split_shape_witness :
    ((2:ℚ)/5 ∈ freqT) ∧ (ptm5 onesM freqT dirC (2/5) true).1.length = 2 :=
  ⟨by decide, (ptm5_split_shape onesM freqT dirC (2/5) true (by decide)).1⟩

unseal Rat.add Rat.mul Rat.inv Rat.sub in
/-- C1 evaluated at the failing input: with three pure-swell regions of
moments (1, 9, 4), `np_ptm1` applies the inverse of the sorting permutation
(`sorted(zip(isort, swell_partitions))` instead of indexing by `isort`), so
the returned swell slots carry moments (4, 1, 9) and the Hs of slot 2 is
strictly below the Hs of slot 3 - the promised non-increasing order fails. -/
theorem np_ptm1_swell_order_violation :
    npHs 3 2 freqC dirC ((np_ptm1 wshedC celC specC specC 3 2 freqC dirC 0 0 0
        (17/10) (1/3) (some 3) false).getD 2 zeroM)
      < npHs 3 2 freqC dirC ((np_ptm1 wshedC celC specC specC 3 2 freqC dirC 0 0 0
        (17/10) (1/3) (some 3) false).getD 3 zeroM) := by
  rw [np_ptm1_wspd_zero wshedC celC specC specC 3 2 freqC dirC 0 0 (17/10) (1/3)
    (some 3) false celC_pos]
  apply npHs_lt_npHs
  · decide
  · decide

unseal Rat.add Rat.mul Rat.inv Rat.sub in
/-- C6 counterexample: `np_ptm1` called with `swells = -5` raises nothing -
Python's negative slice `swell_partitions[:-5]` silently drops all three
detected candidates and a one-slot partition array (the wind-sea slot) is
returned. -/
theorem np_ptm1_negative_swells_returns :
    (np_ptm1 wshedC celC specC specC 3 2 freqC dirC 0 0 0 (17/10) (1/3)
        (some (-5)) false).length = 1 := by
  rw [np_ptm1_wspd_zero wshedC celC specC specC 3 2 freqC dirC 0 0 (17/10) (1/3)
    (some (-5)) false celC_pos]
  decide

/-- C6 (as amended): negative partition counts are not rejected; with
`combine=False` the Python slice `partitions[:n]` silently drops `|n|`
partitions from the end, so `np_ptm1` returns
`1 + max(0, nparts - |swells|)` slots and `np_ptm3` returns
`max(0, nparts - |parts|)` slots. -/
theorem negative_counts_silent_slice
    (wshed : Mat → ℕ → ℕ → ℕ → ℕ → ℕ) (cel : ℝ → ℝ → ℝ) (S Ssm : Mat)
    (nf nd : ℕ) (freq dir : List ℚ) (wspd wdir dpt agefac : ℝ) (wscut : ℚ)
    (s p : ℤ) (hs : s < 0) (hp : p < 0) :
    (np_ptm1 wshed cel S Ssm nf nd freq dir wspd wdir dpt agefac wscut
        (some s) false).length
      = 1 + (npartsOf (wshed Ssm nf nd) nf nd - (-s).toNat)
    ∧ (np_ptm3 wshed S Ssm nf nd freq dir (some p) false).length
      = npartsOf (wshed Ssm nf nd) nf nd - (-p).toNat :=
  ⟨np_ptm1Core_length_neg S (wshed Ssm nf nd) nf nd
      (windseamaskB cel freq dir wspd wdir dpt agefac) freq dir wscut s hs,
    np_ptm3Core_length_neg S (wshed Ssm nf nd) nf nd freq dir p hp⟩

unseal Rat.add Rat.mul Rat.inv Rat.sub in
/-- C6 witness for the amended statement. -/
theorem negative_counts_silent_slice_witness :
    ((-5:ℤ) < 0)
    ∧ (np_ptm1 wshedC celC specC specC 3 2 freqC dirC 0 0 0 (17/10) (1/3)
        (some (-5)) false).length
      = 1 + (npartsOf (wshedC specC 3 2) 3 2 - (-(-5:ℤ)).toNat) :=
  ⟨by norm_num,
    (negative_counts_silent_slice wshedC celC specC specC 3 2 freqC dirC 0 0 0
      (17/10) (1/3) (-5) (-5) (by norm_num) (by norm_num)).1⟩

unseal Rat.add Rat.mul Rat.inv Rat.sub in
/-- C2 witness: on a 3 x 2 spectrum split into three full-cover regions the
partition stacks of `np_ptm1` and `np_ptm3` both sum back to the input. -/
theorem ptm1_ptm3_energy_conservation_witness :
    (∀ i < 3, ∀ j < 2, wmapC i j = 0 → specC i j = 0)
    ∧ (∀ i < 3, ∀ j < 2,
        stackSum (np_ptm1 wshedC celC specC specC 3 2 freqC dirC 0 0 0 (17/10)
          (1/3) (some 3) false) i j = specC i j
        ∧ stackSum (np_ptm3 wshedC specC specC 3 2 freqC dirC (some 3) false) i j
          = specC i j) :=
  ⟨by decide,
    ptm1_ptm3_energy_conservation wshedC celC specC specC 3 2 freqC dirC 0 0 0
      (17/10) (1/3) 3 3 (by decide) (by decide) (by decide)⟩

/-- C3 witness: requesting 5 swells on the 3-region spectrum yields 6 output
slots. -/
theorem np_ptm1_output_shape_witness :
    ((0:ℤ) ≤ 5)
    ∧ (np_ptm1 wshedC celC specC specC 3 2 freqC dirC 0 0 0 (17/10) (1/3)
        (some 5) false).length = (5:ℤ).toNat + 1 :=
  ⟨by norm_num,
    (np_ptm1_output_shape wshedC celC specC specC 3 2 freqC dirC 0 0 0 (17/10)
      (1/3) 5 false (by norm_num)).1⟩

unseal Rat.add Rat.mul Rat.inv Rat.sub in
/-- C5 witness: region 1 of the 3 x 2 spectrum has nonzero energy and the
first output slot is the wind-sea partition. -/
theorem np_ptm1_wind_sea_rule_witness :
    (∀ i < 3, ∀ j < 2, (0:ℚ) ≤ specC i j)
    ∧ matSum 3 2 (regionPart (wshedC specC 3 2) specC 1) ≠ 0
    ∧ (np_ptm1 wshedC celC specC specC 3 2 freqC dirC 0 0 0 (17/10) (1/3)
        (some 3) false).headD zeroM
      = wseaPartition specC (wshedC specC 3 2) 3 2
          (windseamaskB celC freqC dirC 0 0 0 (17/10)) (1/3) :=
  ⟨by decide, by decide,
    (np_ptm1_wind_sea_rule wshedC celC specC specC 3 2 freqC dirC 0 0 0 (17/10)
      (1/3) (some 3) false 1 (by decide) (by norm_num) (by decide) (by decide)).1⟩

unseal Rat.add Rat.mul Rat.inv Rat.sub in
/-- C7 witness: region 2 of `specZ` (its second column) carries zero energy
and is classified as swell, not wind sea. -/
theorem zero_region_classification_witness :
    matSum 2 2 (regionPart wmapZ specZ 2) = 0
    ∧ classifyWS specZ wmapZ 2 2 (fun _ _ => true) (1/3) 2 = false :=
  ⟨by decide,
    (zero_region_classification specZ wmapZ 2 2 (fun _ _ => true) (1/3) freqT dirC
      2 (by decide) (by norm_num) (by decide) (by decide) (by norm_num)).1⟩
